import Mathlib

/-!
Shallow embedding of the Orin thought-extraction pipeline.

Source files embedded here:
* `src/unnamed/part_000` — temporal resolver (`parseResurfaceTiming`,
  `getTaskResurfaceSchedule`);
* `src/utils/transcription.ts` — extraction-client data shapes and
  `calculateConfidence`;
* `src/components/HomeScreen.tsx` — the pipeline orchestrator
  (`processMindDump`).

Modelling conventions:
* A JavaScript `Date` holds a time value in milliseconds since the Unix
  epoch, valid only within ±8.64e15 ms; an out-of-range mutation produces an
  Invalid Date, and `toISOString` on an Invalid Date throws.  We model a date
  value as `Option Int` (`none` = Invalid Date) and each mutating step
  re-checks the range, exactly as the engine does.
* `setHours`/`setDate`/`getDay` act on local wall-clock time; the device zone
  is modelled as a fixed offset `off` in milliseconds east of UTC, threaded
  as an explicit parameter.  With a fixed offset, `setDate(getDate()+k)` is
  exactly `+k` days of milliseconds, and `setHours(h,0,0,0)` moves to the
  local day's hour `h` sharp.  JS floor semantics of day extraction match
  `Int.ediv`/`Int.emod` for the positive divisor used here.
* The source function reads the wall clock via `new Date()` inside its body;
  that hidden read is made explicit as the parameter `now`.
* Date *strings* (the `deadline` field) are modelled by their parsed value:
  `none` = JS-falsy (null or empty string), `some none` = a non-empty string
  that is not a parseable date (Invalid Date), `some (some t)` = a string
  parsing to instant `t`.
-/

/- The Batteries rational-number operations are marked irreducible, which
blocks `decide`-style evaluation; restore default reducibility inside this
file so concrete pipeline runs evaluate. -/
attribute [local semireducible] Rat.add Rat.sub Rat.mul Rat.inv

set_option maxRecDepth 40000

namespace Orin

/-! ## JS `Date` model -/

def msPerHour : Int := 3600000

def msPerDay : Int := 86400000

/-- JS `Date` range bound: ±8,640,000,000,000,000 ms from the epoch. -/
def maxDateMs : Int := 8640000000000000

/-- Range check applied by the engine after every time-value mutation. -/
def norm (t : Int) : Option Int :=
  if -maxDateMs ≤ t ∧ t ≤ maxDateMs then some t else none

/-- Milliseconds into the local calendar day (`off` = zone offset, ms). -/
def localTimeOfDay (off t : Int) : Int := (t + off) % msPerDay

/-- Index of the local calendar day (floor of local time / one day). -/
def localDayNumber (off t : Int) : Int := (t + off) / msPerDay

/-- JS `getDay()`: 0 = Sunday … 6 = Saturday; the epoch day is a Thursday. -/
def jsGetDay (off t : Int) : Int := (localDayNumber off t + 4) % 7

/-- JS `setHours(h, 0, 0, 0)`: jump to hour `h` sharp of the local day. -/
def setLocalHour (off h t : Int) : Int :=
  t - localTimeOfDay off t + h * msPerHour

/-- JS `setDate(getDate() + k)` on a possibly-invalid date. -/
def addDaysD (k : Int) (d : Option Int) : Option Int :=
  d.bind fun t => norm (t + k * msPerDay)

/-- JS `setHours(getHours() + k)` on a possibly-invalid date. -/
def addHoursD (k : Int) (d : Option Int) : Option Int :=
  d.bind fun t => norm (t + k * msPerHour)

/-- JS `setHours(h, 0, 0, 0)` on a possibly-invalid date. -/
def setHoursD (off h : Int) (d : Option Int) : Option Int :=
  d.bind fun t => norm (setLocalHour off h t)

/-! ## String vocabulary matching (`includes`, the numeric regexes) -/

/-- JS `String.prototype.includes`: substring containment. -/
def containsSub (needle : List Char) : List Char → Bool
  | [] => needle.isEmpty
  | c :: rest => needle.isPrefixOf (c :: rest) || containsSub needle rest

/-- ASCII lowering of the expression, as in `timing.toLowerCase()`. -/
def lowerStr (s : String) : List Char := s.data.map Char.toLower

/-- The anchored regex `/^\d{4}-\d{2}-\d{2}T/`. -/
def isoPrefixB : List Char → Bool
  | y1 :: y2 :: y3 :: y4 :: s1 :: m1 :: m2 :: s2 :: d1 :: d2 :: t :: _ =>
      y1.isDigit && y2.isDigit && y3.isDigit && y4.isDigit && s1 == '-' &&
      m1.isDigit && m2.isDigit && s2 == '-' && d1.isDigit && d2.isDigit &&
      t == 'T'
  | _ => false

/-- Decimal value of a digit run, as `parseInt` reads the captured group. -/
def digitsVal (l : List Char) : Nat :=
  l.foldl (fun n c => n * 10 + (c.toNat - 48)) 0

/-- Try `/in (\d+)<unit>/` at one position of the scanned text. -/
def inNumAt (unit l : List Char) : Option Nat :=
  if "in ".data.isPrefixOf l then
    let r := l.drop 3
    let ds := r.takeWhile Char.isDigit
    if ds.isEmpty then none
    else if unit.isPrefixOf (r.drop ds.length) then some (digitsVal ds)
    else none
  else none

/-- Leftmost match of `/in (\d+)<unit>/`. -/
def scanIn (unit : List Char) : List Char → Option Nat
  | [] => inNumAt unit []
  | c :: rest =>
    match inNumAt unit (c :: rest) with
    | some n => some n
    | none => scanIn unit rest

/-- The call `lower.match(/in (\d+) days?/)`, first captured number. -/
def scanInDays (l : List Char) : Option Nat := scanIn " day".data l

/-- The call `lower.match(/in (\d+) hours?/)`, first captured number. -/
def scanInHours (l : List Char) : Option Nat := scanIn " hour".data l

/-- Try `/(\d+) days? before/` at one position of the scanned text. -/
def daysBeforeAt (l : List Char) : Option Nat :=
  let ds := l.takeWhile Char.isDigit
  if ds.isEmpty then none
  else
    let r := l.drop ds.length
    if " days before".data.isPrefixOf r || " day before".data.isPrefixOf r then
      some (digitsVal ds)
    else none

/-- Leftmost match of `/(\d+) days? before/`. -/
def scanDaysBefore : List Char → Option Nat
  | [] => daysBeforeAt []
  | c :: rest =>
    match daysBeforeAt (c :: rest) with
    | some n => some n
    | none => scanDaysBefore rest

/-- The `daysOfWeek` array of the source, Sunday first. -/
def weekdayNames : List (List Char) :=
  ["sunday".data, "monday".data, "tuesday".data, "wednesday".data,
   "thursday".data, "friday".data, "saturday".data]

/-- The weekday loop: first index whose name the text contains. -/
def firstWeekdayAux : List (List Char) → Nat → List Char → Option Nat
  | [], _, _ => none
  | w :: ws, i, l =>
    if containsSub w l then some i else firstWeekdayAux ws (i + 1) l

def firstWeekdayIdx (l : List Char) : Option Nat :=
  firstWeekdayAux weekdayNames 0 l

/-! ## The temporal resolver (`parseResurfaceTiming`) -/

/-- What the resolver returns: the input string echoed verbatim (the ISO
branch) or `toISOString` of a computed instant. -/
inductive TimingResult
  | echo (s : String)
  | stamp (t : Int)
deriving DecidableEq, Repr

/-- Result of one call: `result = none` models the `catch` path (the JS
function returned `null` after an internal throw, e.g. `toISOString` on an
Invalid Date); `warned` records the non-fatal fallback diagnostic. -/
structure ParseOutcome where
  result : Option TimingResult
  warned : Bool
deriving DecidableEq, Repr

def mkStamp (o : Option Int) (w : Bool) : ParseOutcome :=
  ⟨o.map TimingResult.stamp, w⟩

/-- The weekday loop and the tomorrow-morning fallback, shared by the two
paths that reach the bottom of the source function. -/
def weekdayOrFallback (off : Int) (lower : List Char) (now : Int) :
    ParseOutcome :=
  match firstWeekdayIdx lower with
  | some i =>
    let diff : Int := (i : Int) - jsGetDay off now
    let daysUntil := if diff ≤ 0 then diff + 7 else diff
    mkStamp (setHoursD off 9 (addDaysD daysUntil (some now))) false
  | none => mkStamp (setHoursD off 9 (addDaysD 1 (some now))) true

/-- The resolver `parseResurfaceTiming(timing, deadline)` of `src/unnamed/part_000`.
`off` is the device zone offset and `now` the value of the internal
`new Date()` read (the source takes neither as a parameter). -/
def parseResurfaceTiming (off : Int) (timing : String)
    (deadline : Option (Option Int)) (now : Int) : ParseOutcome :=
  if isoPrefixB timing.data then ⟨some (TimingResult.echo timing), false⟩
  else
    let lower := lowerStr timing
    if containsSub "tomorrow morning".data lower then
      mkStamp (setHoursD off 9 (addDaysD 1 (some now))) false
    else if containsSub "tomorrow afternoon".data lower then
      mkStamp (setHoursD off 14 (addDaysD 1 (some now))) false
    else if containsSub "tomorrow evening".data lower then
      mkStamp (setHoursD off 18 (addDaysD 1 (some now))) false
    else if containsSub "tomorrow".data lower then
      mkStamp (setHoursD off 9 (addDaysD 1 (some now))) false
    else if containsSub "next week".data lower then
      mkStamp (setHoursD off 9 (addDaysD 7 (some now))) false
    else
      match scanInDays lower with
      | some n => mkStamp (setHoursD off 9 (addDaysD (n : Int) (some now))) false
      | none =>
        match scanInHours lower with
        | some n => mkStamp (addHoursD (n : Int) (some now)) false
        | none =>
          match deadline with
          | some dv =>
            if containsSub "before deadline".data lower then
              match scanDaysBefore lower with
              | some n => mkStamp (setHoursD off 9 (addDaysD (-(n : Int)) dv)) false
              | none => weekdayOrFallback off lower now
            else weekdayOrFallback off lower now
          | none => weekdayOrFallback off lower now

/-! ## `getTaskResurfaceSchedule` -/

/-- One conditional `schedule.push`: kept only when the candidate is a valid
date strictly in the future (`cand > now` is false for an Invalid Date). -/
def futureOnly (now : Int) (c : Option Int) : List Int :=
  match c with
  | some t => if now < t then [t] else []
  | none => []

/-- The helper `getTaskResurfaceSchedule(deadline)` of `src/unnamed/part_000`; the
deadline is modelled by its parsed instant, `now` by the internal clock
read. -/
def getTaskResurfaceSchedule (off deadline now : Int) : List Int :=
  futureOnly now (setHoursD off 9 (addDaysD (-2) (some deadline)))
    ++ futureOnly now (setHoursD off 9 (some deadline))
    ++ futureOnly now (addHoursD (-2) (some deadline))

/-! ## Extraction-client data shapes (`src/utils/transcription.ts`)

The model's JSON output is duck-typed at runtime (the `as AnalyzedContent`
cast performs no checks), so the `type` field is modelled as a free string,
not the six-member enum of the TypeScript annotation. -/

structure SubtaskStub where
  text : String
  order : Int
deriving DecidableEq, Repr

/-- One raw extracted item: the `Thought` interface of `transcription.ts`. -/
structure RawItem where
  thought_text : String
  type : String
  importance : String
  deadline : Option (Option Int)
  time_needed_minutes : Option Int
  category : String
  next_action : Option String
  related : List String
  resurface_timing : String
  sentiment : String
  subtasks : Option (List SubtaskStub)
deriving DecidableEq, Repr

structure AnalyzedContent where
  summary : String
  priorities : List String
  insights : String
  thoughts : List RawItem
deriving DecidableEq, Repr

/-- JS truthiness of a string: non-empty. -/
def strTruthy (s : String) : Bool := s != ""

/-- JS truthiness of a nullable string field. -/
def optStrTruthy : Option String → Bool
  | none => false
  | some s => s != ""

/-! ### IEEE-754 binary64 arithmetic

The engine runs `calculateConfidence` on doubles, and its exact outcomes
are observable (the sequential sum `0.5 + 0.1 + … + 0.1` lands one ulp
below 1.0, and `Math.min(·, 1.0)` only caps from above), so the scorer is
modelled over correctly rounded binary64 values: a double is the exact
rational it denotes, and each addition rounds the exact sum to 53
significant bits, ties to even.  All values this program computes lie well
inside the normal range, so overflow and subnormals need no modelling. -/

/-- Fuel-bounded binary logarithm; with fuel ≥ n it is `⌊log₂ n⌋`.
Written with a bare `Nat.rec` so that evaluation peels only `⌊log₂ n⌋`
layers of the fuel. -/
def log2fuel (fuel : Nat) : Nat → Nat :=
  Nat.rec (motive := fun _ => Nat → Nat) (fun _ => 0)
    (fun _ ih n => if 2 ≤ n then ih (n / 2) + 1 else 0) fuel

def natLog2 (n : Nat) : Nat := log2fuel n n

/-- Integer powers of two as rationals. -/
def pow2 (e : ℤ) : ℚ :=
  if 0 ≤ e then mkRat (Int.ofNat (2 ^ e.toNat)) 1
  else mkRat 1 (2 ^ (-e).toNat)

/-- Largest exponent `e` with `2 ^ e ≤ x`, for positive rational `x`. -/
def exp2floor (x : ℚ) : ℤ :=
  let e0 : ℤ := Int.ofNat (natLog2 x.num.natAbs) - Int.ofNat (natLog2 x.den)
  if pow2 (e0 + 1) ≤ x then e0 + 1
  else if pow2 e0 ≤ x then e0
  else e0 - 1

/-- Round a rational to an integer, half to even. -/
def roundHalfEven (q : ℚ) : ℤ :=
  let f := q.floor
  let r := q - mkRat f 1
  if r < mkRat 1 2 then f
  else if mkRat 1 2 < r then f + 1
  else if f % 2 = 0 then f else f + 1

/-- The binary64 double nearest a rational: scale the magnitude to a
53-bit significand and round, ties to even. -/
def roundDouble (x : ℚ) : ℚ :=
  if x = 0 then 0
  else
    let a := if x < 0 then -x else x
    let e : ℤ := exp2floor a - 52
    let m : ℤ := roundHalfEven (a * pow2 (-e))
    (if x < 0 then -(mkRat m 1) else mkRat m 1) * pow2 e

/-- One JS `+` on numbers: the exact sum, correctly rounded to binary64. -/
def jsAdd (a b : ℚ) : ℚ := roundDouble (a + b)

/-- The double the program literal `0.1` denotes (not exactly 1/10). -/
def d01 : ℚ := roundDouble (1 / 10)

/-- The scorer `calculateConfidence` of `src/utils/transcription.ts`, over
the engine's double arithmetic: `0.5` is exactly representable, each
`score += 0.1` is a correctly rounded binary64 addition of the double
`0.1`, and `Math.min(score, 1.0)` compares exactly — it caps values above
1.0 and never rounds a smaller value up. -/
def calculateConfidence (t : RawItem) : ℚ :=
  let s : ℚ := 1/2
  let s := if strTruthy t.type then jsAdd s d01 else s
  let s := if strTruthy t.importance then jsAdd s d01 else s
  let s := if t.type == "task" && optStrTruthy t.next_action then jsAdd s d01 else s
  let s := if t.type == "task" && t.deadline.isSome then jsAdd s d01 else s
  let s := if strTruthy t.category && decide (0 < t.category.length) then jsAdd s d01 else s
  min s 1

/-! ## Pipeline orchestrator (`processMindDump` in `HomeScreen.tsx`)

Storage is the external Supabase collaborator.  Each `thoughts`-table insert
either succeeds (returning a generated row id) or yields an error object; the
orchestrator branches on that outcome.  We model it with an oracle
`Nat → Bool` indexed by a running attempt counter, with the attempt index
standing in for the generated id.  Relation and vector inserts have their
errors ignored by the source, so the model records the issued insert. -/

/-- A row the orchestrator sends to the `thoughts` table. -/
structure ThoughtRow where
  dump_id : String
  user_id : String
  thought_text : String
  type : String
  importance : String
  deadline : Option (Option Int)
  time_needed_minutes : Option Int
  category : String
  next_action : Option String
  sentiment : String
  resurface_at : Option TimingResult
  confidence : ℚ
  subtasks : Option (List SubtaskStub)
deriving DecidableEq, Repr

/-- One attempted `thoughts` insert: the row sent, the attempt slot (the
generated id when the insert succeeds) and whether storage accepted it. -/
structure InsertRec where
  row : ThoughtRow
  id : Nat
  ok : Bool
deriving DecidableEq, Repr

structure RelationRow where
  parent_thought_id : Nat
  child_thought_id : Nat
  relation : String
deriving DecidableEq, Repr

structure VectorRow where
  thought_id : Nat
  embedding : List Int
deriving DecidableEq, Repr

structure DumpRecord where
  raw_text : String
  processed : Bool
  model_version : Option String
deriving DecidableEq, Repr

structure PipelineState where
  dump : DumpRecord
  inserts : List InsertRec
  relations : List RelationRow
  vectors : List VectorRow
deriving DecidableEq, Repr

/-- The parent-thought insert payload (HomeScreen.tsx lines 236-252). -/
def parentRow (off : Int) (dumpId userId : String) (now : Int)
    (item : RawItem) : ThoughtRow :=
  { dump_id := dumpId
    user_id := userId
    thought_text := item.thought_text
    type := item.type
    importance := item.importance
    deadline := item.deadline
    time_needed_minutes := item.time_needed_minutes
    category := item.category
    next_action := item.next_action
    sentiment := item.sentiment
    resurface_at :=
      (parseResurfaceTiming off item.resurface_timing item.deadline now).result
    confidence := calculateConfidence item
    subtasks := item.subtasks }

/-- The subtask-child insert payload (HomeScreen.tsx lines 266-278). -/
def childRow (dumpId userId : String) (item : RawItem)
    (stub : SubtaskStub) : ThoughtRow :=
  { dump_id := dumpId
    user_id := userId
    thought_text := stub.text
    type := "task"
    importance := item.importance
    deadline := item.deadline
    time_needed_minutes := none
    category := item.category
    next_action := none
    sentiment := "neutral"
    resurface_at := none
    confidence := 9/10
    subtasks := none }

/-- The guard `thought.subtasks && thought.subtasks.length > 0` (an array is always
JS-truthy, so the guard is: non-null and non-empty). -/
def hasStubs : Option (List SubtaskStub) → Bool
  | some (_ :: _) => true
  | _ => false

/-- The inner subtask loop: one child insert per stub; a relation row is
issued only when that child's insert succeeded. -/
def processSubtasks (oracle : Nat → Bool) (dumpId userId : String)
    (parentId : Nat) (item : RawItem) :
    List SubtaskStub → Nat → List InsertRec × List RelationRow × Nat
  | [], n => ([], [], n)
  | stub :: rest, n =>
    let ok := oracle n
    let rels := if ok then [RelationRow.mk parentId n "subtask"] else []
    let (is, rs, n') := processSubtasks oracle dumpId userId parentId item rest (n + 1)
    (InsertRec.mk (childRow dumpId userId item stub) n ok :: is, rels ++ rs, n')

structure ItemOutcome where
  inserts : List InsertRec
  relations : List RelationRow
  vectors : List VectorRow
  next : Nat
deriving Repr

/-- The body of the per-item loop (HomeScreen.tsx lines 224-307): resolve
resurface timing, score confidence, insert the thought; on insert error skip
the item; otherwise fan out subtasks and attempt the embedding. -/
def processItem (off : Int) (oracle : Nat → Bool)
    (embed : String → Option (List Int)) (dumpId userId : String)
    (now : Int) (item : RawItem) (n : Nat) : ItemOutcome :=
  let row := parentRow off dumpId userId now item
  if oracle n then
    let (cis, rels, n') :=
      if hasStubs item.subtasks then
        processSubtasks oracle dumpId userId n item (item.subtasks.getD []) (n + 1)
      else ([], [], n + 1)
    let vecs :=
      match embed item.thought_text with
      | some e => [VectorRow.mk n e]
      | none => []
    ⟨InsertRec.mk row n true :: cis, rels, vecs, n'⟩
  else ⟨[InsertRec.mk row n false], [], [], n + 1⟩

/-- The full per-item loop over the extraction output. -/
def processItems (off : Int) (oracle : Nat → Bool)
    (embed : String → Option (List Int)) (dumpId userId : String)
    (now : Int) : List RawItem → Nat →
    List InsertRec × List RelationRow × List VectorRow
  | [], _ => ([], [], [])
  | item :: rest, n =>
    let o := processItem off oracle embed dumpId userId now item n
    let (is, rs, vs) := processItems off oracle embed dumpId userId now rest o.next
    (o.inserts ++ is, o.relations ++ rs, o.vectors ++ vs)

/-- The orchestrator `processMindDump` of `HomeScreen.tsx`.  `transcript` is what
`transcribeAudio` resolved to (`none` = transcription failure), `analyze`
models `analyzeWithOpenAI`'s validated return value, `user` the
`supabase.auth.getUser()` result, `st` the stored state of this dump when
the pipeline starts. -/
def processMindDump (off : Int) (oracle : Nat → Bool)
    (transcript : Option String)
    (analyze : String → Option AnalyzedContent)
    (embed : String → Option (List Int))
    (user : Option String) (dumpId : String) (now : Int)
    (st : PipelineState) : PipelineState :=
  match transcript with
  | none => st
  | some tr =>
    let st1 := { st with dump := { st.dump with raw_text := tr } }
    match analyze tr with
    | none => { st1 with dump := { st1.dump with processed := true } }
    | some a =>
      if a.thoughts.isEmpty then
        { st1 with dump := { st1.dump with processed := true } }
      else
        match user with
        | none => st1
        | some uid =>
          let (is, rs, vs) := processItems off oracle embed dumpId uid now a.thoughts 0
          { dump := { raw_text := tr, processed := true,
                      model_version := some "gpt-4o-mini-v1" }
            inserts := st1.inserts ++ is
            relations := st1.relations ++ rs
            vectors := st1.vectors ++ vs }

/-- Rows actually stored in the `thoughts` table: the accepted inserts. -/
def persistedThoughts (st : PipelineState) : List ThoughtRow :=
  (st.inserts.filter (·.ok)).map (·.row)

/-- The six-member type enum the downstream UI partitions on. -/
def validTypes : List String :=
  ["task", "idea", "reminder", "reflection", "question", "event"]

/-- A freshly captured voice dump, before the pipeline runs. -/
def freshDump : PipelineState :=
  ⟨⟨"[Transcribing...]", false, none⟩, [], [], []⟩

/-- A generic extracted item used for concrete runs of the pipeline. -/
def sampleItem (ty : String) (sub : Option (List SubtaskStub)) : RawItem :=
  { thought_text := "t-" ++ ty
    type := ty
    importance := "high"
    deadline := none
    time_needed_minutes := none
    category := "cat"
    next_action := none
    related := []
    resurface_timing := "tomorrow"
    sentiment := "calm"
    subtasks := sub }

/-- A 3-item extraction result whose middle item carries the invalid type
`"banana"` (end-to-end scenario C of the spec). -/
def bananaContent : AnalyzedContent :=
  { summary := "s", priorities := [], insights := "i",
    thoughts := [sampleItem "task" none, sampleItem "banana" none,
                 sampleItem "idea" none] }

/-- A large task carrying two subtask stubs. -/
def subItem : RawItem :=
  sampleItem "task" (some [⟨"open docs", 1⟩, ⟨"outline plan", 2⟩])

/-! ## Helper lemmas -/

theorem strTruthy_pos_length {s : String} (h : strTruthy s = true) :
    0 < s.length := by
  cases s with
  | mk d =>
    cases d with
    | nil => simp [strTruthy] at h
    | cons c cs => simp [String.length]

/-! ## C3 — confidence scorer -/

/-- A task item with type, importance, next action, deadline and category
all populated. -/
def fullTaskItem : RawItem :=
  { thought_text := "ship the report"
    type := "task"
    importance := "high"
    deadline := some (some 0)
    time_needed_minutes := none
    category := "work"
    next_action := some "open the draft"
    related := []
    resurface_timing := "tomorrow"
    sentiment := "calm"
    subtasks := none }

/-- An item with only its type populated. -/
def onlyTypeItem : RawItem :=
  { thought_text := "an idea"
    type := "idea"
    importance := ""
    deadline := none
    time_needed_minutes := none
    category := ""
    next_action := none
    related := []
    resurface_timing := ""
    sentiment := ""
    subtasks := none }

/-- Counterexample to C3: in the engine's double arithmetic the fully
populated task scores `0.5 + 0.1·5` sequentially rounded, which lands one
ulp below 1 (printed `0.9999999999999999`), and `Math.min(·, 1.0)` returns
it unchanged — the claimed "scores exactly 1.0" is false of the code. -/
theorem confidence_full_task_not_exactly_one :
    calculateConfidence fullTaskItem = 1 - (1 : ℚ) / 2 ^ 53
    ∧ calculateConfidence fullTaskItem ≠ 1 := by
  constructor
  · decide
  · decide

/-- C3 (amended): the Confidence Scorer is the additive completeness score
computed in the engine's binary64 arithmetic — base 0.5 plus the double
0.1 for each of: type present, importance present, type `task` with a next
action, type `task` with a deadline, non-empty category — capped by an
exact `Math.min(·, 1.0)`.  Every score lies in [0, 1), strictly below 1
(the cap never fires): a fully populated task scores exactly `1 - 2⁻⁵³`
(the double printed `0.9999999999999999`), not 1.0, and an item with only
its type populated scores exactly the double the program literal `0.6`
denotes (`roundDouble (3/5)`). -/
theorem confidence_score_double_spec (t : RawItem) :
    0 ≤ calculateConfidence t
    ∧ calculateConfidence t < 1
    ∧ (t.type = "task" → strTruthy t.importance = true →
        optStrTruthy t.next_action = true → t.deadline.isSome = true →
        strTruthy t.category = true →
        calculateConfidence t = 1 - (1 : ℚ) / 2 ^ 53)
    ∧ (strTruthy t.type = true → strTruthy t.importance = false →
        optStrTruthy t.next_action = false → t.deadline = none →
        t.category = "" → calculateConfidence t = roundDouble (3 / 5)) := by
  refine ⟨?_, ?_, ?_, ?_⟩
  · unfold calculateConfidence
    split_ifs <;> decide
  · unfold calculateConfidence
    split_ifs <;> decide
  · intro hty himp hna hd hcat
    have hlenb : decide (0 < t.category.length) = true :=
      decide_eq_true (strTruthy_pos_length hcat)
    have htyb : (t.type == "task") = true := by simp [hty]
    have htyt : strTruthy t.type = true := by simp [hty, strTruthy]
    unfold calculateConfidence
    rw [htyt, himp, hna, hd, hcat, htyb, hlenb]
    decide
  · intro hty himp hna hd hcat
    unfold calculateConfidence
    rw [hty, himp, hna, hd, hcat]
    simp only [Option.isSome_none, Bool.and_false]
    decide

/-- Witness for the amended C3: the fully populated task scores one ulp
below 1, the only-type item scores the double 0.6. -/
theorem confidence_score_double_spec_witness :
    calculateConfidence fullTaskItem = 1 - (1 : ℚ) / 2 ^ 53
    ∧ calculateConfidence onlyTypeItem = roundDouble (3 / 5) := by
  constructor
  · exact (confidence_score_double_spec _).2.2.1 rfl (by decide) (by decide)
      (by decide) (by decide)
  · exact (confidence_score_double_spec _).2.2.2 (by decide) (by decide)
      (by decide) rfl rfl

/-! ## C1 — transcription failure -/

/-- C1: evaluation of the orchestrator at the failing input.  When
`transcribeAudio` resolves to `null`, `processMindDump` returns from the
`if (!transcript)` guard without touching storage: the dump is left exactly
as captured — `processed` is still `false` (the spec says this path marks
the dump processed; only the analysis-failure path below it does that) and
no Thought rows exist. -/
theorem transcription_failure_leaves_dump_unprocessed (off : Int)
    (oracle : Nat → Bool) (analyze : String → Option AnalyzedContent)
    (embed : String → Option (List Int)) (user : Option String)
    (dumpId : String) (now : Int) :
    processMindDump off oracle none analyze embed user dumpId now freshDump
      = freshDump
    ∧ (processMindDump off oracle none analyze embed user dumpId now
        freshDump).dump.processed = false
    ∧ persistedThoughts
        (processMindDump off oracle none analyze embed user dumpId now
          freshDump) = [] :=
  ⟨rfl, rfl, rfl⟩

/-! ## C2 — no per-item type validation -/

/-- Counterexample to C2: running the pipeline on a 3-item extraction
result whose middle item has type `"banana"` persists all three items —
the invalid item is inserted verbatim, not skipped — so the claimed
"exactly 2 persisted Thoughts" is false.  (Neither `analyzeWithOpenAI` nor
the per-item loop inspects `thought.type`.) -/
theorem banana_item_persists_with_the_rest :
    (persistedThoughts (processMindDump 0 (fun _ => true) (some "tr")
        (fun _ => some bananaContent) (fun _ => none) (some "u") "d" 0
        freshDump)).map (fun r => r.type) = ["task", "banana", "idea"]
    ∧ (persistedThoughts (processMindDump 0 (fun _ => true) (some "tr")
        (fun _ => some bananaContent) (fun _ => none) (some "u") "d" 0
        freshDump)).length = 3
    ∧ ¬ ((persistedThoughts (processMindDump 0 (fun _ => true) (some "tr")
        (fun _ => some bananaContent) (fun _ => none) (some "u") "d" 0
        freshDump)).length = 2)
    ∧ (processMindDump 0 (fun _ => true) (some "tr")
        (fun _ => some bananaContent) (fun _ => none) (some "u") "d" 0
        freshDump).dump.processed = true := by
  refine ⟨by decide, by decide, by decide, by decide⟩

/-- Closed form of the subtask loop: one insert per stub at consecutive
attempt slots, and one relation row for exactly the stubs whose insert the
storage accepted. -/
theorem processSubtasks_eq (oracle : Nat → Bool) (d u : String) (pid : Nat)
    (item : RawItem) (stubs : List SubtaskStub) (n : Nat) :
    processSubtasks oracle d u pid item stubs n =
      ((stubs.enumFrom n).map
        (fun p => InsertRec.mk (childRow d u item p.2) p.1 (oracle p.1)),
       ((stubs.enumFrom n).filter (fun p => oracle p.1)).map
        (fun p => RelationRow.mk pid p.1 "subtask"),
       n + stubs.length) := by
  induction stubs generalizing n with
  | nil => simp [processSubtasks]
  | cons s rest ih =>
    simp only [processSubtasks, ih, List.enumFrom_cons, List.map_cons,
      List.filter_cons, List.length_cons]
    cases horc : oracle n <;> simp [horc] <;> omega

theorem filterOk_rows_of_accepted {α : Type} (g : α → ThoughtRow)
    (ids : α → Nat) (l : List α) :
    ((l.map (fun p => InsertRec.mk (g p) (ids p) true)).filter
        (fun r => r.ok)).map (fun r => r.row) = l.map g := by
  induction l with
  | nil => rfl
  | cons a as ih => simp [ih]

/-- Persisted rows produced by one loop iteration when storage accepts
every insert: the parent row followed by one child row per stub. -/
theorem processItem_allok (off : Int) (embed : String → Option (List Int))
    (d u : String) (now : Int) (item : RawItem) (n : Nat) :
    ((processItem off (fun _ => true) embed d u now item n).inserts.filter
        (fun r => r.ok)).map (fun r => r.row)
      = parentRow off d u now item ::
          (if hasStubs item.subtasks then
            (item.subtasks.getD []).map (childRow d u item)
          else []) := by
  cases hst : hasStubs item.subtasks
  case false => simp [processItem, hst]
  case true =>
    simp only [processItem, processSubtasks_eq, hst, if_true]
    simp only [List.filter_cons, decide_True, if_true, List.map_cons]
    rw [filterOk_rows_of_accepted
        (fun p : Nat × SubtaskStub => childRow d u item p.2)
        (fun p : Nat × SubtaskStub => p.1)]
    rw [show (fun p : Nat × SubtaskStub => childRow d u item p.2)
          = (childRow d u item) ∘ Prod.snd from rfl,
        ← List.map_map, List.enumFrom_map_snd]

/-- Persisted rows of the whole loop when storage accepts every insert:
the concatenation, item by item, of parent row plus child rows. -/
theorem processItems_allok (off : Int) (embed : String → Option (List Int))
    (d u : String) (now : Int) (items : List RawItem) (n : Nat) :
    (((processItems off (fun _ => true) embed d u now items n).1).filter
        (fun r => r.ok)).map (fun r => r.row)
      = items.flatMap (fun item =>
          parentRow off d u now item ::
            (if hasStubs item.subtasks then
              (item.subtasks.getD []).map (childRow d u item)
            else [])) := by
  induction items generalizing n with
  | nil => rfl
  | cons item rest ih =>
    simp only [processItems, List.flatMap_cons, List.filter_append,
      List.map_append, processItem_allok, ih]

/-- C2 (amended): the pipeline applies no per-item type validation.  Every
extracted item — whatever string its `type` field holds — is sent to
storage verbatim; when storage accepts all inserts, every item is persisted
(its `type` stored unchanged, so a 3-item response with one `"banana"` item
yields 3 persisted Thoughts, not 2), and the dump still reaches Processed.
An item is skipped only when its own storage insert fails. -/
theorem items_persist_verbatim_without_validation (off : Int)
    (embed : String → Option (List Int)) (tr dumpId uid : String)
    (now : Int) (a : AnalyzedContent) (st : PipelineState)
    (h : a.thoughts ≠ []) :
    (processMindDump off (fun _ => true) (some tr) (fun _ => some a) embed
        (some uid) dumpId now st).dump.processed = true
    ∧ persistedThoughts (processMindDump off (fun _ => true) (some tr)
          (fun _ => some a) embed (some uid) dumpId now st)
        = persistedThoughts st
          ++ a.thoughts.flatMap (fun item =>
              parentRow off dumpId uid now item ::
                (if hasStubs item.subtasks then
                  (item.subtasks.getD []).map (childRow dumpId uid item)
                else []))
    ∧ ∀ item ∈ a.thoughts,
        parentRow off dumpId uid now item ∈
          persistedThoughts (processMindDump off (fun _ => true) (some tr)
            (fun _ => some a) embed (some uid) dumpId now st)
        ∧ (parentRow off dumpId uid now item).type = item.type := by
  have hne : a.thoughts.isEmpty = false := by
    cases hth : a.thoughts with
    | nil => exact absurd hth h
    | cons x xs => rfl
  have hpersist : persistedThoughts (processMindDump off (fun _ => true)
      (some tr) (fun _ => some a) embed (some uid) dumpId now st)
      = persistedThoughts st
        ++ a.thoughts.flatMap (fun item =>
            parentRow off dumpId uid now item ::
              (if hasStubs item.subtasks then
                (item.subtasks.getD []).map (childRow dumpId uid item)
              else [])) := by
    simp only [processMindDump, hne, Bool.false_eq_true, if_false,
      persistedThoughts]
    simp only [List.filter_append, List.map_append, processItems_allok]
  refine ⟨?_, hpersist, ?_⟩
  · simp only [processMindDump, hne, Bool.false_eq_true, if_false]
  · intro item hitem
    refine ⟨?_, rfl⟩
    rw [hpersist]
    refine List.mem_append_right _ ?_
    exact List.mem_flatMap.mpr ⟨item, hitem, List.mem_cons_self _ _⟩

/-- Witness for the amended C2 at the concrete 3-item banana response. -/
theorem items_persist_verbatim_without_validation_witness :
    (processMindDump 0 (fun _ => true) (some "tr")
        (fun _ => some bananaContent) (fun _ => none) (some "u") "d" 0
        freshDump).dump.processed = true
    ∧ parentRow 0 "d" "u" 0 (sampleItem "banana" none) ∈
        persistedThoughts (processMindDump 0 (fun _ => true) (some "tr")
          (fun _ => some bananaContent) (fun _ => none) (some "u") "d" 0
          freshDump) := by
  refine ⟨(items_persist_verbatim_without_validation 0 (fun _ => none)
    "tr" "d" "u" 0 bananaContent freshDump (by decide)).1, ?_⟩
  exact ((items_persist_verbatim_without_validation 0 (fun _ => none)
    "tr" "d" "u" 0 bananaContent freshDump (by decide)).2.2
    (sampleItem "banana" none) (by decide)).1

/-! ## C9 / C10 — subtask fan-out -/

/-- One loop iteration for an item carrying stubs, parent insert accepted:
full closed form. -/
theorem processItem_withStubs (off : Int) (oracle : Nat → Bool)
    (embed : String → Option (List Int)) (d u : String) (now : Int)
    (item : RawItem) (stubs : List SubtaskStub) (n : Nat)
    (hs : item.subtasks = some stubs) (hne : stubs ≠ [])
    (hok : oracle n = true) :
    processItem off oracle embed d u now item n =
      ⟨InsertRec.mk (parentRow off d u now item) n true ::
         (stubs.enumFrom (n + 1)).map
           (fun p => InsertRec.mk (childRow d u item p.2) p.1 (oracle p.1)),
       ((stubs.enumFrom (n + 1)).filter (fun p => oracle p.1)).map
         (fun p => RelationRow.mk n p.1 "subtask"),
       (match embed item.thought_text with
        | some e => [VectorRow.mk n e]
        | none => []),
       n + 1 + stubs.length⟩ := by
  have hstub : hasStubs (some stubs) = true := by
    cases stubs with
    | nil => exact absurd rfl hne
    | cons a l => rfl
  simp only [processItem, hok, if_true, hs, hstub, Option.getD_some,
    processSubtasks_eq]

/-- C9: for an item whose subtask stubs are present, once the parent
Thought insert is accepted, the orchestrator issues exactly one child
Thought insert per stub — type forced to `task`, importance inherited from
the parent item, sentiment fixed to `neutral` — and issues a
`ThoughtRelation(parent, child, "subtask")` for a child exactly when that
child's insert was accepted by storage. -/
theorem subtask_fanout_relations (off : Int) (oracle : Nat → Bool)
    (embed : String → Option (List Int)) (d u : String) (now : Int)
    (item : RawItem) (stubs : List SubtaskStub) (n : Nat)
    (hs : item.subtasks = some stubs) (hne : stubs ≠ [])
    (hok : oracle n = true) :
    (processItem off oracle embed d u now item n).inserts
      = InsertRec.mk (parentRow off d u now item) n true ::
          (stubs.enumFrom (n + 1)).map
            (fun p => InsertRec.mk (childRow d u item p.2) p.1 (oracle p.1))
    ∧ (∀ stub ∈ stubs,
        (childRow d u item stub).type = "task"
        ∧ (childRow d u item stub).importance = item.importance
        ∧ (childRow d u item stub).sentiment = "neutral")
    ∧ (processItem off oracle embed d u now item n).relations
        = ((stubs.enumFrom (n + 1)).filter (fun p => oracle p.1)).map
            (fun p => RelationRow.mk n p.1 "subtask")
    ∧ ∀ j, j < stubs.length →
        (RelationRow.mk n (n + 1 + j) "subtask"
            ∈ (processItem off oracle embed d u now item n).relations
          ↔ oracle (n + 1 + j) = true) := by
  have hitem := processItem_withStubs off oracle embed d u now item stubs n
    hs hne hok
  refine ⟨by rw [hitem], fun stub _ => ⟨rfl, rfl, rfl⟩, by rw [hitem], ?_⟩
  intro j hj
  rw [hitem]
  constructor
  · intro hmem
    obtain ⟨p, hpfilter, hpeq⟩ := List.mem_map.mp hmem
    have hp1 : p.1 = n + 1 + j := by
      simpa [RelationRow.mk.injEq] using hpeq
    have hg := List.of_mem_filter hpfilter
    simpa [hp1] using hg
  · intro horc
    have hlen : j < (stubs.enumFrom (n + 1)).length := by simpa using hj
    have hget := List.getElem_enumFrom stubs (n + 1) j hlen
    have hmem2 : (n + 1 + j, stubs[j]) ∈ stubs.enumFrom (n + 1) := by
      rw [← hget]
      exact List.getElem_mem hlen
    refine List.mem_map.mpr ⟨(n + 1 + j, stubs[j]), ?_, rfl⟩
    exact List.mem_filter.mpr ⟨hmem2, by simpa using horc⟩

/-- Witness for C9: a task with two stubs, slot 2's insert rejected by
storage: the relation for child 1 exists, the relation for child 2 does
not. -/
theorem subtask_fanout_relations_witness :
    (RelationRow.mk 0 1 "subtask"
      ∈ (processItem 0 (fun n => n != 2) (fun _ => none) "d" "u" 0
          subItem 0).relations)
    ∧ ¬ (RelationRow.mk 0 2 "subtask"
      ∈ (processItem 0 (fun n => n != 2) (fun _ => none) "d" "u" 0
          subItem 0).relations) := by
  have h := subtask_fanout_relations 0 (fun n => n != 2) (fun _ => none)
    "d" "u" 0 subItem [⟨"open docs", 1⟩, ⟨"outline plan", 2⟩] 0 rfl
    (by decide) rfl
  constructor
  · exact (h.2.2.2 0 (by decide)).mpr (by decide)
  · intro hmem
    exact absurd ((h.2.2.2 1 (by decide)).mp hmem) (by decide)

/-- C10: every child insert built from a subtask stub carries the fixed
confidence constant 0.9 — for every parent item whatsoever, so the
Confidence Scorer plays no part in it — and inherits the parent item's
deadline and category. -/
theorem subtask_children_fixed_confidence (off : Int) (oracle : Nat → Bool)
    (embed : String → Option (List Int)) (d u : String) (now : Int)
    (item : RawItem) (stubs : List SubtaskStub) (n : Nat)
    (hs : item.subtasks = some stubs) (hne : stubs ≠ [])
    (hok : oracle n = true) :
    (∀ rec ∈ (processItem off oracle embed d u now item n).inserts.tail,
        rec.row.confidence = 9/10
        ∧ rec.row.deadline = item.deadline
        ∧ rec.row.category = item.category)
    ∧ ∀ (item' : RawItem) (stub : SubtaskStub) (d' u' : String),
        (childRow d' u' item' stub).confidence = 9/10 := by
  refine ⟨?_, fun item' stub d' u' => rfl⟩
  intro rec hrec
  rw [processItem_withStubs off oracle embed d u now item stubs n hs hne hok]
    at hrec
  simp only [List.tail_cons] at hrec
  obtain ⟨p, _, hpeq⟩ := List.mem_map.mp hrec
  rw [← hpeq]
  exact ⟨rfl, rfl, rfl⟩

/-- Witness for C10: the concrete child rows of `subItem` all carry
confidence 0.9 and its deadline and category. -/
theorem subtask_children_fixed_confidence_witness :
    (childRow "d" "u" subItem ⟨"open docs", 1⟩).confidence = 9/10
    ∧ ∀ rec ∈ (processItem 0 (fun _ => true) (fun _ => none) "d" "u" 0
        subItem 0).inserts.tail, rec.row.confidence = 9/10 := by
  have h := subtask_children_fixed_confidence 0 (fun _ => true)
    (fun _ => none) "d" "u" 0 subItem [⟨"open docs", 1⟩, ⟨"outline plan", 2⟩]
    0 rfl (by decide) rfl
  exact ⟨h.2 subItem ⟨"open docs", 1⟩ "d" "u",
    fun rec hrec => (h.1 rec hrec).1⟩

/-! ## C5 — the resolver's reference time is not a declared input -/

/-- Counterexample to C5: the source function's declared inputs are only
the expression and the anchor deadline — `now` is read from the system
clock inside the body (`const now = new Date()`).  Two calls with identical
declared inputs but different internal clock samples return different
results, so the result does depend on a hidden clock read. -/
theorem resolver_reads_hidden_clock :
    parseResurfaceTiming 0 "tomorrow" none 0
      ≠ parseResurfaceTiming 0 "tomorrow" none (7 * msPerDay) := by
  decide

/-- C5 (amended): the resolver is deterministic given the internally
sampled clock value — equal samples give equal results — but the sample is
an implicit input: there exist fixed declared inputs for which two calls at
different instants disagree. -/
theorem resolver_deterministic_given_clock_sample :
    (∀ (off : Int) (x : String) (d : Option (Option Int)) (t : Int),
        parseResurfaceTiming off x d t = parseResurfaceTiming off x d t)
    ∧ ∃ (off : Int) (x : String) (d : Option (Option Int)) (t₁ t₂ : Int),
        parseResurfaceTiming off x d t₁ ≠ parseResurfaceTiming off x d t₂ :=
  ⟨fun _ _ _ _ => rfl,
   ⟨0, "tomorrow", none, 0, 7 * msPerDay, by decide⟩⟩

/-! ## C7 — absolute timestamps echo unchanged -/

/-- A well-formed absolute ISO-8601 combined timestamp.  Every such string
begins `YYYY-MM-DDThh`; this predicate checks exactly that shape (it
over-approximates well-formedness, which only widens the theorem below). -/
def wellFormedISO (s : String) : Bool :=
  match s.data with
  | y1 :: y2 :: y3 :: y4 :: a :: m1 :: m2 :: b :: d1 :: d2 :: c :: h1 :: h2 :: _ =>
      y1.isDigit && y2.isDigit && y3.isDigit && y4.isDigit && a == '-' &&
      m1.isDigit && m2.isDigit && b == '-' && d1.isDigit && d2.isDigit &&
      c == 'T' && h1.isDigit && h2.isDigit
  | _ => false

theorem isoPrefixB_of_wellFormed {s : String} (h : wellFormedISO s = true) :
    isoPrefixB s.data = true := by
  unfold wellFormedISO at h
  unfold isoPrefixB
  rcases hd : s.data with _ | ⟨y1, _ | ⟨y2, _ | ⟨y3, _ | ⟨y4, _ | ⟨a, _ | ⟨m1,
    _ | ⟨m2, _ | ⟨b, _ | ⟨d1, _ | ⟨d2, _ | ⟨c, _ | ⟨h1, _ | ⟨h2, rest⟩⟩⟩⟩⟩⟩⟩⟩⟩⟩⟩⟩⟩ <;>
    rw [hd] at h <;> simp_all

/-- C7: an expression that is already a well-formed absolute ISO timestamp
is returned by the resolver exactly as given (`result = echo s`, i.e. the
very input string), with no warning, regardless of the zone offset, the
anchor deadline and the clock sample. -/
theorem iso_roundtrip_identity (off : Int) (s : String)
    (d : Option (Option Int)) (now : Int) (h : wellFormedISO s = true) :
    parseResurfaceTiming off s d now
      = ⟨some (TimingResult.echo s), false⟩ := by
  unfold parseResurfaceTiming
  rw [isoPrefixB_of_wellFormed h]
  rfl

/-- Witness for C7 at a concrete ISO timestamp, with a deadline anchor and
a nonzero clock sample present. -/
theorem iso_roundtrip_identity_witness :
    wellFormedISO "2025-01-07T09:00:00Z" = true
    ∧ parseResurfaceTiming (-18000000) "2025-01-07T09:00:00Z"
        (some (some 1736208000000)) 1736121600000
      = ⟨some (TimingResult.echo "2025-01-07T09:00:00Z"), false⟩ :=
  ⟨by decide,
   iso_roundtrip_identity (-18000000) "2025-01-07T09:00:00Z"
     (some (some 1736208000000)) 1736121600000 (by decide)⟩

/-! ## C4 — the resurface schedule for a deadline -/

/-- Counterexample to C4: a deadline at 10:00 local (day 9 of the epoch),
`now` at the epoch.  All three candidates are future, but the third
("2 hours before", 08:00) precedes the second ("day of at 09:00"): the
returned list is not sorted ascending. -/
theorem schedule_not_sorted_counterexample :
    getTaskResurfaceSchedule 0 (9 * msPerDay + 10 * msPerHour) 0
      = [7 * msPerDay + 9 * msPerHour, 9 * msPerDay + 9 * msPerHour,
         9 * msPerDay + 8 * msPerHour]
    ∧ ¬ List.Sorted (· ≤ ·)
        (getTaskResurfaceSchedule 0 (9 * msPerDay + 10 * msPerHour) 0) := by
  constructor
  · decide
  · decide

theorem norm_cases (t : Int) : norm t = none ∨ norm t = some t := by
  unfold norm
  split
  · right; rfl
  · left; rfl

theorem setHoursD_cases (off h t : Int) :
    setHoursD off h (some t) = none
    ∨ setHoursD off h (some t) = some (setLocalHour off h t) :=
  norm_cases _

theorem addHoursD_cases (k t : Int) :
    addHoursD k (some t) = none
    ∨ addHoursD k (some t) = some (t + k * msPerHour) :=
  norm_cases _

theorem setHoursD_addDaysD_cases (off h k t : Int) :
    setHoursD off h (addDaysD k (some t)) = none
    ∨ setHoursD off h (addDaysD k (some t))
        = some (setLocalHour off h (t + k * msPerDay)) := by
  have ha : addDaysD k (some t) = norm (t + k * msPerDay) := rfl
  rw [ha]
  rcases norm_cases (t + k * msPerDay) with hn | hn <;> rw [hn]
  · left; rfl
  · exact setHoursD_cases off h (t + k * msPerDay)

theorem mem_futureOnly {t now : Int} {c : Option Int}
    (h : t ∈ futureOnly now c) : c = some t ∧ now < t := by
  rcases c with _ | v
  · simp [futureOnly] at h
  · simp only [futureOnly] at h
    split_ifs at h with hv
    · simp at h
      subst h
      exact ⟨rfl, hv⟩
    · simp at h

theorem futureOnly_sorted (now : Int) (c : Option Int) :
    List.Sorted (· ≤ ·) (futureOnly now c) := by
  rcases c with _ | v
  · simp [futureOnly]
  · simp only [futureOnly]
    split_ifs <;> simp

theorem futureOnly_length (now : Int) (c : Option Int) :
    (futureOnly now c).length ≤ 1 := by
  rcases c with _ | v
  · simp [futureOnly]
  · simp only [futureOnly]
    split_ifs <;> simp

theorem sched_v1_le_v2 (off dl : Int) :
    setLocalHour off 9 (dl + (-2) * msPerDay) ≤ setLocalHour off 9 dl := by
  unfold setLocalHour localTimeOfDay msPerDay msPerHour
  omega

theorem sched_v1_le_v3 (off dl : Int) :
    setLocalHour off 9 (dl + (-2) * msPerDay) ≤ dl + (-2) * msPerHour := by
  unfold setLocalHour localTimeOfDay msPerDay msPerHour
  omega

theorem sched_v2_le_v3 (off dl : Int)
    (h : 11 * msPerHour ≤ localTimeOfDay off dl) :
    setLocalHour off 9 dl ≤ dl + (-2) * msPerHour := by
  unfold localTimeOfDay msPerDay msPerHour at h
  unfold setLocalHour localTimeOfDay msPerDay msPerHour
  omega

/-- C4 (amended): the schedule contains at most three candidates (2 days
before at 09:00, day-of at 09:00, 2 hours before), every returned
timestamp is strictly in the future of `now`, and the list — returned in
that fixed candidate order — is sorted ascending whenever the deadline's
local time of day is at or after 11:00.  (When the deadline falls before
11:00 local, the 2-hours-before candidate precedes the day-of-09:00
candidate, as the counterexample shows.) -/
theorem schedule_future_bounded_conditionally_sorted (off deadline now : Int) :
    (getTaskResurfaceSchedule off deadline now).length ≤ 3
    ∧ (∀ t ∈ getTaskResurfaceSchedule off deadline now, now < t)
    ∧ (11 * msPerHour ≤ localTimeOfDay off deadline →
        List.Sorted (· ≤ ·) (getTaskResurfaceSchedule off deadline now)) := by
  unfold getTaskResurfaceSchedule
  refine ⟨?_, ?_, ?_⟩
  · have l1 := futureOnly_length now (setHoursD off 9 (addDaysD (-2) (some deadline)))
    have l2 := futureOnly_length now (setHoursD off 9 (some deadline))
    have l3 := futureOnly_length now (addHoursD (-2) (some deadline))
    simp only [List.length_append]
    omega
  · intro t ht
    rcases List.mem_append.mp ht with ht' | h3
    · rcases List.mem_append.mp ht' with h1 | h2
      · exact (mem_futureOnly h1).2
      · exact (mem_futureOnly h2).2
    · exact (mem_futureOnly h3).2
  · intro htod
    unfold List.Sorted
    rw [List.pairwise_append, List.pairwise_append]
    refine ⟨⟨futureOnly_sorted _ _, futureOnly_sorted _ _, ?_⟩,
      futureOnly_sorted _ _, ?_⟩
    · intro a ha b hb
      obtain ⟨hca, _⟩ := mem_futureOnly ha
      obtain ⟨hcb, _⟩ := mem_futureOnly hb
      rcases setHoursD_addDaysD_cases off 9 (-2) deadline with h | h <;>
        rw [h] at hca
      · exact absurd hca (by simp)
      · rcases setHoursD_cases off 9 deadline with h' | h' <;> rw [h'] at hcb
        · exact absurd hcb (by simp)
        · obtain rfl := Option.some.inj hca
          obtain rfl := Option.some.inj hcb
          exact sched_v1_le_v2 off deadline
    · intro a ha b hb
      obtain ⟨hcb, _⟩ := mem_futureOnly hb
      rcases addHoursD_cases (-2) deadline with h3 | h3 <;> rw [h3] at hcb
      · exact absurd hcb (by simp)
      · obtain rfl := Option.some.inj hcb
        rcases List.mem_append.mp ha with h1 | h2
        · obtain ⟨hca, _⟩ := mem_futureOnly h1
          rcases setHoursD_addDaysD_cases off 9 (-2) deadline with h | h <;>
            rw [h] at hca
          · exact absurd hca (by simp)
          · obtain rfl := Option.some.inj hca
            exact sched_v1_le_v3 off deadline
        · obtain ⟨hca, _⟩ := mem_futureOnly h2
          rcases setHoursD_cases off 9 deadline with h' | h' <;>
            rw [h'] at hca
          · exact absurd hca (by simp)
          · obtain rfl := Option.some.inj hca
            exact sched_v2_le_v3 off deadline htod

/-- Witness for the amended C4: a deadline at 15:00 local gives the fully
sorted three-candidate schedule. -/
theorem schedule_future_bounded_conditionally_sorted_witness :
    (getTaskResurfaceSchedule 0 (9 * msPerDay + 15 * msPerHour) 0).length ≤ 3
    ∧ List.Sorted (· ≤ ·)
        (getTaskResurfaceSchedule 0 (9 * msPerDay + 15 * msPerHour) 0) :=
  ⟨(schedule_future_bounded_conditionally_sorted 0
      (9 * msPerDay + 15 * msPerHour) 0).1,
   (schedule_future_bounded_conditionally_sorted 0
      (9 * msPerDay + 15 * msPerHour) 0).2.2 (by decide)⟩

/-! ## C6 / C8 — weekday resolution and the fallback

The vocabulary branches are tried in source order; the lemmas below reduce
the resolver to its weekday/fallback tail when every earlier pattern
misses. -/

theorem isPrefixOf_of_append {a b l : List Char}
    (h : (a ++ b).isPrefixOf l = true) : a.isPrefixOf l = true := by
  induction a generalizing l with
  | nil => simp [List.isPrefixOf]
  | cons c cs ih =>
    cases l with
    | nil => simp [List.isPrefixOf] at h
    | cons d ds =>
      simp only [List.cons_append, List.isPrefixOf, Bool.and_eq_true] at h ⊢
      exact ⟨h.1, ih h.2⟩

theorem containsSub_mono {a b l : List Char}
    (h : containsSub (a ++ b) l = true) : containsSub a l = true := by
  induction l with
  | nil =>
    simp only [containsSub, List.isEmpty_iff, List.append_eq_nil] at h ⊢
    exact h.1
  | cons c cs ih =>
    simp only [containsSub, Bool.or_eq_true] at h ⊢
    rcases h with h | h
    · exact Or.inl (isPrefixOf_of_append h)
    · exact Or.inr (ih h)

/-- No vocabulary pattern before the weekday loop matches: the expression
is not an ISO timestamp, contains none of the tomorrow/next-week phrases,
matches neither numeric regex, and the deadline-relative branch does not
return. -/
def fallsThroughToWeekday (x : String) (d : Option (Option Int)) : Prop :=
  isoPrefixB x.data = false
  ∧ containsSub "tomorrow".data (lowerStr x) = false
  ∧ containsSub "next week".data (lowerStr x) = false
  ∧ scanInDays (lowerStr x) = none
  ∧ scanInHours (lowerStr x) = none
  ∧ (d = none ∨ containsSub "before deadline".data (lowerStr x) = false
      ∨ scanDaysBefore (lowerStr x) = none)

instance (x : String) (d : Option (Option Int)) :
    Decidable (fallsThroughToWeekday x d) := by
  unfold fallsThroughToWeekday
  infer_instance

theorem parse_reduces_to_weekday (off : Int) (x : String)
    (d : Option (Option Int)) (now : Int) (h : fallsThroughToWeekday x d) :
    parseResurfaceTiming off x d now
      = weekdayOrFallback off (lowerStr x) now := by
  obtain ⟨h1, h2, h3, h4, h5, h6⟩ := h
  have hm : containsSub "tomorrow morning".data (lowerStr x) = false := by
    cases hcm : containsSub "tomorrow morning".data (lowerStr x)
    · rfl
    · rw [show "tomorrow morning".data
          = "tomorrow".data ++ " morning".data from rfl] at hcm
      exact absurd (containsSub_mono hcm) (by simp [h2])
  have ha : containsSub "tomorrow afternoon".data (lowerStr x) = false := by
    cases hcm : containsSub "tomorrow afternoon".data (lowerStr x)
    · rfl
    · rw [show "tomorrow afternoon".data
          = "tomorrow".data ++ " afternoon".data from rfl] at hcm
      exact absurd (containsSub_mono hcm) (by simp [h2])
  have he : containsSub "tomorrow evening".data (lowerStr x) = false := by
    cases hcm : containsSub "tomorrow evening".data (lowerStr x)
    · rfl
    · rw [show "tomorrow evening".data
          = "tomorrow".data ++ " evening".data from rfl] at hcm
      exact absurd (containsSub_mono hcm) (by simp [h2])
  unfold parseResurfaceTiming
  simp only [h1, hm, ha, he, h2, h3, h4, h5, Bool.false_eq_true, if_false]
  rcases d with _ | dv
  · rfl
  · rcases h6 with h6 | h6 | h6
    · exact absurd h6 (by simp)
    · simp only [h6, Bool.false_eq_true, if_false]
    · cases hbd : containsSub "before deadline".data (lowerStr x)
      · simp
      · simp [hbd, h6]

theorem norm_some_of_range {t : Int} (h1 : -maxDateMs ≤ t)
    (h2 : t ≤ maxDateMs) : norm t = some t := by
  unfold norm
  rw [if_pos ⟨h1, h2⟩]

/-- Everything true of the weekday branch's computed stamp: the target is
hour 9 sharp of a local day carrying weekday `i`, strictly after the
current local day and at most 7 days out, exactly 7 days out when today
already is weekday `i`. -/
theorem weekday_stamp_props (off now : Int) (i : Nat) (hi : i < 7) (k : Int)
    (hk : k = (if (i : Int) - jsGetDay off now ≤ 0 then
        (i : Int) - jsGetDay off now + 7 else (i : Int) - jsGetDay off now))
    (hlo : -maxDateMs + 9 * msPerDay ≤ now)
    (hhi : now ≤ maxDateMs - 9 * msPerDay) :
    mkStamp (setHoursD off 9 (addDaysD k (some now))) false
      = ⟨some (TimingResult.stamp
          (setLocalHour off 9 (now + k * msPerDay))), false⟩
    ∧ localTimeOfDay off (setLocalHour off 9 (now + k * msPerDay))
        = 9 * msPerHour
    ∧ jsGetDay off (setLocalHour off 9 (now + k * msPerDay)) = (i : Int)
    ∧ localDayNumber off now
        < localDayNumber off (setLocalHour off 9 (now + k * msPerDay))
    ∧ localDayNumber off (setLocalHour off 9 (now + k * msPerDay))
        ≤ localDayNumber off now + 7
    ∧ (jsGetDay off now = (i : Int) →
        localDayNumber off (setLocalHour off 9 (now + k * msPerDay))
          = localDayNumber off now + 7) := by
  have hcb : 0 ≤ jsGetDay off now ∧ jsGetDay off now < 7 := by
    unfold jsGetDay localDayNumber msPerDay
    constructor <;> omega
  have hkcase : ((i : Int) - jsGetDay off now ≤ 0
        ∧ k = (i : Int) - jsGetDay off now + 7)
      ∨ (0 < (i : Int) - jsGetDay off now
        ∧ k = (i : Int) - jsGetDay off now) := by
    rw [hk]
    split_ifs with hc
    · exact Or.inl ⟨hc, rfl⟩
    · exact Or.inr ⟨by omega, rfl⟩
  have hkb : 1 ≤ k ∧ k ≤ 7 := by
    obtain ⟨hc, hke⟩ | ⟨hc, hke⟩ := hkcase <;> omega
  have hyb : -maxDateMs ≤ now + k * msPerDay
      ∧ now + k * msPerDay ≤ maxDateMs := by
    obtain ⟨hk1, hk7⟩ := hkb
    unfold maxDateMs msPerDay at hlo hhi ⊢
    omega
  have hy : addDaysD k (some now) = some (now + k * msPerDay) :=
    norm_some_of_range hyb.1 hyb.2
  have htb : -maxDateMs ≤ setLocalHour off 9 (now + k * msPerDay)
      ∧ setLocalHour off 9 (now + k * msPerDay) ≤ maxDateMs := by
    obtain ⟨hk1, hk7⟩ := hkb
    unfold setLocalHour localTimeOfDay maxDateMs msPerDay msPerHour
    unfold maxDateMs msPerDay at hlo hhi
    constructor <;> omega
  have ht : setHoursD off 9 (some (now + k * msPerDay))
      = some (setLocalHour off 9 (now + k * msPerDay)) :=
    norm_some_of_range htb.1 htb.2
  refine ⟨by rw [hy, ht]; rfl, ?_, ?_, ?_, ?_, ?_⟩
  · unfold localTimeOfDay setLocalHour localTimeOfDay msPerDay msPerHour
    omega
  · obtain ⟨hc, hke⟩ | ⟨hc, hke⟩ := hkcase <;>
      (simp only [jsGetDay, localDayNumber, localTimeOfDay, setLocalHour,
        msPerDay, msPerHour] at hc hke ⊢) <;> omega
  · obtain ⟨hc, hke⟩ | ⟨hc, hke⟩ := hkcase <;>
      (simp only [jsGetDay, localDayNumber, localTimeOfDay, setLocalHour,
        msPerDay, msPerHour] at hc hke ⊢) <;> omega
  · obtain ⟨hc, hke⟩ | ⟨hc, hke⟩ := hkcase <;>
      (simp only [jsGetDay, localDayNumber, localTimeOfDay, setLocalHour,
        msPerDay, msPerHour] at hc hke ⊢) <;> omega
  · intro hcuri
    obtain ⟨hc, hke⟩ | ⟨hc, hke⟩ := hkcase <;>
      (simp only [jsGetDay, localDayNumber, localTimeOfDay, setLocalHour,
        msPerDay, msPerHour] at hc hke hcuri ⊢) <;> omega

theorem firstWeekdayAux_lt {ws : List (List Char)} {k i : Nat}
    {l : List Char} (h : firstWeekdayAux ws k l = some i) :
    i < k + ws.length := by
  induction ws generalizing k with
  | nil => simp [firstWeekdayAux] at h
  | cons w ws ih =>
    simp only [firstWeekdayAux] at h
    split at h
    · obtain rfl := Option.some.inj h
      simp
    · have := ih h
      simp only [List.length_cons]
      omega

theorem firstWeekdayIdx_lt {l : List Char} {i : Nat}
    (h : firstWeekdayIdx l = some i) : i < 7 := by
  have h7 := firstWeekdayAux_lt h
  simpa [weekdayNames] using h7

/-- C6: when the resolver reaches the weekday loop and the first matching
weekday name has index `i` (0 = Sunday … 6 = Saturday), the result is a
stamp at 09:00 local of the next occurrence of weekday `i` strictly after
the current local calendar day — never the current day, at most 7 days
out, and exactly 7 days out when the reference instant already falls on
weekday `i` (resolving "monday" on a Monday yields the following Monday). -/
theorem weekday_resolution_strictly_future (off : Int) (x : String)
    (d : Option (Option Int)) (now : Int) (i : Nat)
    (h : fallsThroughToWeekday x d)
    (hw : firstWeekdayIdx (lowerStr x) = some i)
    (hlo : -maxDateMs + 9 * msPerDay ≤ now)
    (hhi : now ≤ maxDateMs - 9 * msPerDay) :
    ∃ t, parseResurfaceTiming off x d now
        = ⟨some (TimingResult.stamp t), false⟩
      ∧ localTimeOfDay off t = 9 * msPerHour
      ∧ jsGetDay off t = (i : Int)
      ∧ localDayNumber off now < localDayNumber off t
      ∧ localDayNumber off t ≤ localDayNumber off now + 7
      ∧ (jsGetDay off now = (i : Int) →
          localDayNumber off t = localDayNumber off now + 7) := by
  have hi : i < 7 := firstWeekdayIdx_lt hw
  rw [parse_reduces_to_weekday off x d now h]
  unfold weekdayOrFallback
  rw [hw]
  exact ⟨setLocalHour off 9 (now +
      (if (i : Int) - jsGetDay off now ≤ 0 then
        (i : Int) - jsGetDay off now + 7
      else (i : Int) - jsGetDay off now) * msPerDay),
    weekday_stamp_props off now i hi _ rfl hlo hhi⟩

/-- Witness for C6: resolving `"monday"` when the clock reads a Monday
10:00 UTC (1970-01-05, epoch day 4) yields the Monday 7 days later at
09:00, not the same day. -/
theorem weekday_resolution_strictly_future_witness :
    parseResurfaceTiming 0 "monday" none (4 * msPerDay + 10 * msPerHour)
      = ⟨some (TimingResult.stamp (11 * msPerDay + 9 * msPerHour)), false⟩
    ∧ jsGetDay 0 (4 * msPerDay + 10 * msPerHour) = 1
    ∧ localDayNumber 0 (11 * msPerDay + 9 * msPerHour)
        = localDayNumber 0 (4 * msPerDay + 10 * msPerHour) + 7 := by
  obtain ⟨t, heq, -, -, -, -, hmon⟩ :=
    weekday_resolution_strictly_future 0 "monday" none
      (4 * msPerDay + 10 * msPerHour) 1 (by decide) (by decide)
      (by decide) (by decide)
  have hval : parseResurfaceTiming 0 "monday" none
      (4 * msPerDay + 10 * msPerHour)
      = ⟨some (TimingResult.stamp (11 * msPerDay + 9 * msPerHour)),
         false⟩ := by
    decide
  have ht : t = 11 * msPerDay + 9 * msPerHour := by
    rw [hval] at heq
    simpa [ParseOutcome.mk.injEq] using heq.symm
  refine ⟨hval, by decide, ?_⟩
  have h3 := hmon (by decide)
  rw [ht] at h3
  exact h3

/-- C8: a total-miss expression falls through every vocabulary branch and
returns the "tomorrow at 09:00" fallback with the non-fatal diagnostic
emitted; no exception escapes (the embedding is total, and the only `none`
results model the internal `catch` path). -/
theorem fallback_tomorrow_morning (off : Int) (x : String)
    (d : Option (Option Int)) (now : Int)
    (h : fallsThroughToWeekday x d)
    (hw : firstWeekdayIdx (lowerStr x) = none)
    (hlo : -maxDateMs + 9 * msPerDay ≤ now)
    (hhi : now ≤ maxDateMs - 9 * msPerDay) :
    parseResurfaceTiming off x d now
      = ⟨some (TimingResult.stamp (setLocalHour off 9 (now + msPerDay))),
         true⟩ := by
  rw [parse_reduces_to_weekday off x d now h]
  unfold weekdayOrFallback
  rw [hw]
  have hyb : -maxDateMs ≤ now + msPerDay ∧ now + msPerDay ≤ maxDateMs := by
    unfold maxDateMs msPerDay at hlo hhi ⊢
    omega
  have hy : addDaysD 1 (some now) = some (now + msPerDay) := by
    have h1 : now + 1 * msPerDay = now + msPerDay := by ring
    show norm (now + 1 * msPerDay) = some (now + msPerDay)
    rw [h1]
    exact norm_some_of_range hyb.1 hyb.2
  have htb : -maxDateMs ≤ setLocalHour off 9 (now + msPerDay)
      ∧ setLocalHour off 9 (now + msPerDay) ≤ maxDateMs := by
    unfold setLocalHour localTimeOfDay maxDateMs msPerDay msPerHour
    unfold maxDateMs msPerDay at hlo hhi
    constructor <;> omega
  have ht : setHoursD off 9 (some (now + msPerDay))
      = some (setLocalHour off 9 (now + msPerDay)) :=
    norm_some_of_range htb.1 htb.2
  rw [hy, ht]
  rfl

/-- Witness for C8: the unmatched expression `"whenever"` resolves to the
next day at 09:00 with the warning flag set. -/
theorem fallback_tomorrow_morning_witness :
    parseResurfaceTiming 0 "whenever" none 0
      = ⟨some (TimingResult.stamp (msPerDay + 9 * msPerHour)), true⟩ := by
  have h := fallback_tomorrow_morning 0 "whenever" none 0 (by decide)
    (by decide) (by decide) (by decide)
  rw [h]
  decide

end Orin
